import Mathlib

/-!
Verification of the grammY runner (long-polling update runner).

This file gives a shallow embedding, in Lean 4, of the parts of the
repository that the specification's claims are about:

* the update fetcher with its retry/backoff loop
  (`src/src/runner.ts`, `createUpdateFetcher` / `fetchUpdates` /
  `throwIfUnrecoverable`),
* the offset bookkeeping after a successful `getUpdates` batch,
* the `limit` clamping of both the node fetcher (`src/src/runner.ts`)
  and the legacy deno fetcher (`src/deno/src/runner.ts`),
* the runner loop's error propagation (`createRunner` in
  `src/src/runner.ts`),
* the per-key sequentializer (`src/deno/src/sequentialize.ts`),
* the source's adaptive pacing statistics (`createSource`, `record`,
  `worker` in the source module),
* a model of the DecayingDeque capacity contract (the class itself,
  `src/queue.ts`, is not part of the source tree; only its tests and
  callers are, so it is modelled from the specification).

Asynchronous control flow is embedded by making the scheduling explicit:
the fetch loop consumes a script of attempt outcomes and threads time and
performed actions; the runner loop consumes the sequence of loop events;
the sequentializer's promise-chain dataflow is embedded as a dependency
structure over arrival indices, with timing expressed by arbitrary
schedules constrained exactly as the promise semantics constrains them.
-/

/-- An update as the fetcher sees it: an opaque record carrying its
`update_id`. -/
structure Upd where
  update_id : ℤ
deriving DecidableEq, Repr

/-- A JavaScript error value as inspected by `throwIfUnrecoverable`
(`src/src/runner.ts`): possibly carrying an `error_code` field and
possibly carrying a numeric `parameters.retry_after` field (in seconds).
The `tag` field models the identity of the thrown object. -/
structure JsError where
  tag : ℕ
  error_code : Option ℤ
  retry_after : Option ℕ
deriving DecidableEq, Repr

/-- Outcome of one `bot.api.getUpdates(args, signal)` call inside the
fetch loop: either it resolves with a batch of updates, or it rejects
with an error; `aborted` records whether the abort signal was raised at
rejection time, and `dur` is the wall-clock duration of the call in
milliseconds. -/
inductive Attempt (Y : Type) where
  | ok (updates : List Y) (dur : ℕ)
  | fail (e : JsError) (aborted : Bool) (dur : ℕ)
deriving DecidableEq, Repr

/-- Observable side effects of the fetch loop, in order: a `getUpdates`
attempt, a `console.error` log of the error (by its tag), the
`throwIfUnrecoverable` inspection, and a `setTimeout` sleep of the given
number of milliseconds. -/
inductive FetchEvent where
  | attempted
  | logged (tag : ℕ)
  | checked
  | slept (ms : ℕ)
deriving DecidableEq, Repr

/-- Result of one `fetchUpdates` call: success with the batch, a thrown
error, or the attempt script ran out (the real loop always has a next
outcome; scripts are finite, so this case marks an unfinished run).
The `t` component is the absolute time at which the call returned. -/
inductive FetchOut (Y : Type) where
  | success (updates : List Y) (t : ℕ)
  | thrown (e : JsError) (t : ℕ)
  | outOfScript
deriving DecidableEq, Repr

/-- Embedding of `throwIfUnrecoverable` (`src/src/runner.ts`): rethrow
on `error_code` 401 or 409; on 429 with a numeric
`parameters.retry_after` of `d` seconds, sleep `1000 * d` milliseconds
(`.ok (some ms)`); otherwise do nothing (`.ok none`). -/
def throwIfUnrecoverable (e : JsError) : Except JsError (Option ℕ) :=
  match e.error_code with
  | some c =>
    if c = 401 ∨ c = 409 then .error e
    else if c = 429 then
      match e.retry_after with
      | some d => .ok (some (1000 * d))
      | none => .ok none
    else .ok none
  | none => .ok none

/-- The `"exponential"` retry interval of `createUpdateFetcher`:
`t ↦ t + t`. -/
def expBackoff (t : ℕ) : ℕ := t + t

/-- The `"quadratic"` retry interval of `createUpdateFetcher`:
`t ↦ t + 100`. -/
def quadBackoff (t : ℕ) : ℕ := t + 100

/-- Embedding of the retry loop body of `fetchUpdates`
(`src/src/runner.ts`, the `do ... while (updates === undefined)` loop).
Parameters: the backoff schedule, the `silent` option, and
`latestRetry = startTime + maxRetryTime`. State threaded through the
recursion: the current time `now`, the current `retryIn`, and the script
of remaining `getUpdates` outcomes. Returns the loop result together
with the list of performed effects. -/
def fetchGo (backoff : ℕ → ℕ) (silent : Bool) (latestRetry : ℕ) :
    ℕ → ℕ → List (Attempt Y) → FetchOut Y × List FetchEvent
  | _, _, [] => (.outOfScript, [])
  | now, _, .ok us dur :: _ => (.success us (now + dur), [.attempted])
  | now, retryIn, .fail e aborted dur :: rest =>
    let t := now + dur
    if aborted then (.thrown e t, [.attempted])
    else
      let logs : List FetchEvent := if silent then [] else [.logged e.tag]
      match throwIfUnrecoverable e with
      | .error e2 => (.thrown e2 t, .attempted :: (logs ++ [.checked]))
      | .ok pause =>
        let sleepEvts : List FetchEvent :=
          match pause with
          | some ms => [.slept ms]
          | none => []
        let t2 := t + (match pause with | some ms => ms | none => 0)
        if t2 + retryIn < latestRetry then
          let res := fetchGo backoff silent latestRetry (t2 + retryIn) (backoff retryIn) rest
          (res.1, .attempted :: (logs ++ [.checked] ++ sleepEvts ++ [.slept retryIn] ++ res.2))
        else
          (.thrown e t2, .attempted :: (logs ++ [.checked] ++ sleepEvts))

/-- Embedding of the offset update after a successful batch
(`src/src/runner.ts`): `lastId = updates[updates.length - 1]?.update_id;
if (lastId !== undefined) offset = lastId + 1`. -/
def nextOffset (offset : ℤ) (updates : List Upd) : ℤ :=
  match updates.getLast? with
  | some u => u.update_id + 1
  | none => offset

/-- Maximum `update_id` occurring in a batch, as the specification's
words describe it (a spec-side definition used to compare against
`nextOffset`). -/
def specMaxUpdateId : List Upd → ℤ
  | [] => 0
  | u :: us => us.foldl (fun a v => max a v.update_id) u.update_id

/-- The `limit` computed by the node fetcher (`src/src/runner.ts`):
`Math.max(1, Math.min(batchSize, 100))`, over `ℕ ∪ ∞` since the
requested batch size can be `Infinity`. -/
def nodeLimit (batchSize : ℕ∞) : ℕ∞ := max 1 (min batchSize 100)

/-- The `limit` computed by the legacy deno fetcher
(`src/deno/src/runner.ts`): `Math.max(100, Math.min(1, batchSize))`. -/
def denoLimit (batchSize : ℕ∞) : ℕ∞ := max 100 (min 1 batchSize)

/-- A plain transport error: no `error_code`, no `retry_after`. -/
def plainErr (tag : ℕ) : JsError := ⟨tag, none, none⟩

/-- Projects a fetch event to the slept duration, if it is a sleep. -/
def sleptMs : FetchEvent → Option ℕ
  | .slept ms => some ms
  | _ => none

/-- Spec-side description of the retry stop rule for a run of plain
recoverable failures, following the amended claim's words: keep retrying
(sleeping `retryIn`, then backing off) exactly while
`now + nextRetryIn < latestRetry`; at the first failure where
`now + nextRetryIn ≥ latestRetry`, surface the error. Returns the
surfacing time together with the pending `nextRetryIn` at that moment,
or `none` if the script ends before the rule fires. -/
def throwsAt (backoff : ℕ → ℕ) (latestRetry : ℕ) : ℕ → ℕ → List ℕ → Option (ℕ × ℕ)
  | _, _, [] => none
  | now, retryIn, d :: rest =>
    if now + d + retryIn < latestRetry then
      throwsAt backoff latestRetry (now + d + retryIn) (backoff retryIn) rest
    else
      some (now + d, retryIn)

/-- Spec-side list of backoff sleeps performed on a run of plain
recoverable failures: one sleep of the current `retryIn` per retried
failure, none for the failure that surfaces the error. -/
def scheduleSleeps (backoff : ℕ → ℕ) (latestRetry : ℕ) : ℕ → ℕ → List ℕ → List ℕ
  | _, _, [] => []
  | now, retryIn, d :: rest =>
    if now + d + retryIn < latestRetry then
      retryIn :: scheduleSleeps backoff latestRetry (now + d + retryIn) (backoff retryIn) rest
    else
      []

/-- One step of the runner loop (`createRunner` in `src/src/runner.ts`)
as observed at its suspension points: either an iteration completed
(`batch`, with `stopDuring` recording whether `stop` was called while it
was awaited, which makes `if (!running) break` fire), or an error was
raised into the loop (`raise`, with `stopBefore` recording whether
`stop` had already been called when the error arrived). -/
inductive RunnerEvent (E : Type) where
  | batch (stopDuring : Bool)
  | raise (stopBefore : Bool) (e : E)
deriving DecidableEq, Repr

/-- Embedding of the runner's `for await` loop with its catch clause
(`createRunner`, `src/src/runner.ts`): iterate; on `stop` during an
iteration, break and complete normally; on an error, rethrow it (the
`task` promise rejects) if `running` is still `true`, otherwise swallow
it and complete normally. -/
def runnerLoop {E : Type} : List (RunnerEvent E) → Except E Unit
  | [] => .ok ()
  | .batch stopDuring :: rest => if stopDuring then .ok () else runnerLoop rest
  | .raise stopBefore e :: _ => if stopBefore then .ok () else .error e

/-- The value returned by a `sequentialize` constraint function:
a string, an array of strings, or `undefined`
(`src/deno/src/sequentialize.ts`). -/
inductive ConResult where
  | str (s : String)
  | arr (l : List String)
  | undef
deriving DecidableEq, Repr

/-- Key normalization of `sequentialize`:
`(Array.isArray(con) ? con : [con]).filter(cs => !!cs)` — wrap a
non-array into a singleton, then drop falsy entries (empty strings and
`undefined`). -/
def normalizeKeys : ConResult → List String
  | .str s => if s = "" then [] else [s]
  | .arr l => l.filter (fun s => s ≠ "")
  | .undef => []

/-- The most recent arrival before index `i` whose (normalized) key list
contains `k`. This is the invocation whose task is stored in
`map.get(k).chain` when invocation `i` arrives, because every arrival
synchronously sets `entry.tail` for each of its keys
(`src/deno/src/sequentialize.ts`, the `prev.forEach` block). -/
def lastWith (ks : List (List String)) (k : String) (i : ℕ) : Option ℕ :=
  (List.range i).foldl
    (fun acc j => if (ks.getD j []).contains k then some j else acc) none

/-- Whether the map entry for key `k` still exists when invocation `i`
arrives: the entry's `len` refcount is positive, i.e. some earlier
invocation holding `k` has not yet settled (its `finally` block, which
decrements `len` and deletes the entry at zero, runs at its settle
time). -/
def keyAlive (ks : List (List String)) (arrive settle : ℕ → ℕ) (i : ℕ) (k : String) : Bool :=
  (List.range i).any fun j => (ks.getD j []).contains k && decide (arrive i ≤ settle j)

/-- The timing constraint that the barrier
`Promise.all(prev.map(p => new Promise(resolve => p.chain.finally(resolve))))`
imposes for one key of invocation `i`: if the entry for `k` is still
alive at `i`'s arrival, then `i`'s `next()` starts only strictly after
the entry's current tail task has settled. If the entry was already
cleaned up, the key imposes no constraint. -/
def depOkB (ks : List (List String)) (arrive start settle : ℕ → ℕ) (i : ℕ) (k : String) : Bool :=
  match lastWith ks k i with
  | some j => !keyAlive ks arrive settle i k || decide (settle j < start i)
  | none => true

/-- A schedule (arrival, `next()` start, and settle time of every
invocation) is valid when it is consistent with the sequentializer's
promise semantics: a task starts no earlier than its arrival, settles no
earlier than it starts, and respects the barrier constraint of each of
its keys. -/
def validSchedule (ks : List (List String)) (arrive start settle : ℕ → ℕ) : Prop :=
  ∀ i, i < ks.length →
    arrive i ≤ start i ∧ start i ≤ settle i ∧
    ∀ k ∈ ks.getD i [], depOkB ks arrive start settle i k = true

instance validScheduleDecidable (ks : List (List String)) (arrive start settle : ℕ → ℕ) :
    Decidable (validSchedule ks arrive start settle) :=
  inferInstanceAs (Decidable (∀ i, i < ks.length →
    arrive i ≤ start i ∧ start i ≤ settle i ∧
    ∀ k ∈ ks.getD i [], depOkB ks arrive start settle i k = true))

/-- The arrival indices whose tasks invocation `i`'s barrier references:
for each of `i`'s keys, the most recent prior arrival with that key. -/
def directDeps (ks : List (List String)) (i : ℕ) : List ℕ :=
  (ks.getD i []).filterMap fun k => lastWith ks k i

/-- Models `new Promise(resolve => p.chain.finally(resolve))`: a future
that resolves (with `unit`) as soon as `p.chain` has settled, regardless
of whether it resolved or rejected. -/
def settledOk {E : Type} (_ : Except E Unit) : Except E Unit := Except.ok ()

/-- Models `Promise.all` over already-settled component outcomes: the
first rejection, if any, otherwise resolution. -/
def allE {E : Type} : List (Except E Unit) → Except E Unit
  | [] => .ok ()
  | .error e :: _ => .error e
  | .ok _ :: rs => allE rs

/-- Value dataflow of the sequentializer, one invocation at a time in
arrival order: invocation `i`'s middleware promise settles with the
outcome of `await clot` (the barrier over its direct dependencies'
settlements) followed by `await next()` (outcome `outcomes i`); the
`finally` refcount bookkeeping does not alter the value. `seqResults n`
lists the outcomes of invocations `0 .. n-1`. -/
def seqResults {E : Type} (ks : List (List String)) (outcomes : ℕ → Except E Unit) :
    ℕ → List (Except E Unit)
  | 0 => []
  | n + 1 =>
    let prev := seqResults ks outcomes n
    prev ++ [(allE ((directDeps ks n).map
      fun j => settledOk (prev.getD j (Except.ok ())))).bind fun _ => outcomes n]

/-- The settled outcome of invocation `i`'s middleware promise. -/
def seqResult {E : Type} (ks : List (List String)) (outcomes : ℕ → Except E Unit) (i : ℕ) :
    Except E Unit :=
  (seqResults ks outcomes (i + 1)).getD i (Except.ok ())

/-- The barrier value of invocation `i`: the `Promise.all` over the
settlement futures of its direct dependencies. -/
def seqBarrier {E : Type} (ks : List (List String)) (outcomes : ℕ → Except E Unit) (i : ℕ) :
    Except E Unit :=
  allE ((directDeps ks i).map
    fun j => settledOk ((seqResults ks outcomes i).getD j (Except.ok ())))

/-- Ring length of the source's statistics buffers (`STAT_LEN`). -/
def STAT_LEN : ℕ := 16

/-- The source's pacing statistics (`createSource` in the source
module): two rings of the last `STAT_LEN` item counts and call
durations, their running sums, and the shared write index. -/
structure SourceStats where
  counts : List ℕ
  durations : List ℕ
  totalCounts : ℤ
  totalDuration : ℤ
  index : ℕ
deriving DecidableEq, Repr

/-- The statistics as `createSource` sets them up: counts prefilled with
100, durations prefilled with 1, sums `100 * STAT_LEN` and
`1 * STAT_LEN`, write index 0. -/
def sourceStats0 : SourceStats :=
  ⟨List.replicate STAT_LEN 100, List.replicate STAT_LEN 1, 100 * STAT_LEN, 1 * STAT_LEN, 0⟩

/-- The clamp `Math.max(0.0, Math.min(speedTrafficBalance, 1.0))`. -/
def boundedBalance (stb : ℚ) : ℚ := max 0 (min stb 1)

/-- The `balance` constant of `createSource`:
`100 * bounded / Math.max(1, maxDelayMilliseconds)` — the number of
wanted updates per call. -/
def balance (stb : ℚ) (maxDelayMilliseconds : ℕ) : ℚ :=
  100 * boundedBalance stb / max 1 (maxDelayMilliseconds : ℚ)

/-- The ring update performed by `record`: overwrite both buffers at the
write index, adjust the running sums by the difference to the
overwritten values, and advance the index modulo `STAT_LEN`. -/
def updateRing (st : SourceStats) (newCount newDuration : ℕ) : SourceStats :=
  { counts := st.counts.set st.index newCount
    durations := st.durations.set st.index newDuration
    totalCounts := st.totalCounts + newCount - st.counts.getD st.index 0
    totalDuration := st.totalDuration + newDuration - st.durations.getD st.index 0
    index := (st.index + 1) % STAT_LEN }

/-- The estimate `balance * totalDuration / (totalCounts || 1)` computed
by `record` from the updated sums (`x || 1` is `x` unless `x` is 0). -/
def estimateOf (stb : ℚ) (maxDelayMilliseconds : ℕ) (st : SourceStats) : ℚ :=
  balance stb maxDelayMilliseconds * (st.totalDuration : ℚ) /
    (if st.totalCounts = 0 then 1 else (st.totalCounts : ℚ))

/-- State-and-estimate part of `record`: when `balance === 0` the source
installs the constant `() => 0` recorder, performing no tracking at all;
otherwise the ring is updated and the estimate computed. -/
def recordCore (stb : ℚ) (maxDelayMilliseconds : ℕ) (st : SourceStats) (n d : ℕ) :
    SourceStats × ℚ :=
  if balance stb maxDelayMilliseconds = 0 then (st, 0)
  else (updateRing st n d, estimateOf stb maxDelayMilliseconds (updateRing st n d))

/-- The wait returned by `record`: 0 from the constant recorder, else
`maxDelayMilliseconds * Math.tanh(estimate)`. -/
noncomputable def recordWait (stb : ℚ) (maxDelayMilliseconds : ℕ) (st : SourceStats) (n d : ℕ) : ℝ :=
  if balance stb maxDelayMilliseconds = 0 then 0
  else (maxDelayMilliseconds : ℝ) * Real.tanh ((recordCore stb maxDelayMilliseconds st n d).2 : ℝ)

/-- The claim's formula for the inter-batch wait, written from the
specification's words: `maxDelayMilliseconds * tanh(balance *
sum(durations) / max(1, sum(counts)))` over the ring of the last
`STAT_LEN` records. -/
noncomputable def specWait (stb : ℚ) (maxDelayMilliseconds : ℕ) (counts durations : List ℕ) : ℝ :=
  (maxDelayMilliseconds : ℝ) *
    Real.tanh (((balance stb maxDelayMilliseconds : ℚ) : ℝ) * (durations.sum : ℝ) /
      max 1 (counts.sum : ℝ))

/-- The worker's suspension condition after a yielded batch
(`if (wait > 0 && items.length < 100)`). -/
def waits (wait : ℝ) (itemsLen : ℕ) : Prop := 0 < wait ∧ itemsLen < 100

/-- Modelled from the spec: the DecayingDeque implementation
(`src/queue.ts`) is not part of the provided source tree (only its tests
and its callers in the sink module are), so its `add` capacity contract
is taken from the specification: `add` appends all updates to the deque
and resolves with `L − currentSize` at the first moment that value
becomes positive; each completing `consume` task removes its node,
shrinking the size by one. `drainToCapacity L size` returns the resolved
capacity together with the live size at resolution time, as completions
drain the deque one by one. -/
def drainToCapacity (L : ℕ) : ℕ → ℕ × ℕ
  | 0 => (L, 0)
  | n + 1 => if n + 1 < L then (L - (n + 1), n + 1) else drainToCapacity L n

/-- Modelled from the spec: the resolution of a single
`add(updates)` call on a deque with limit `L` that currently holds
`size` live tasks and receives `k` new updates: all `k` are appended,
then the returned promise resolves per `drainToCapacity`. -/
def addResolve (L size k : ℕ) : ℕ × ℕ := drainToCapacity L (size + k)

/-- The `getLast` of a batch that is sorted ascending by `update_id` is
its maximal element. -/
theorem specMaxUpdateId_eq_getLast :
    ∀ (u : Upd) (us : List Upd),
      List.Chain' (fun a b => a.update_id ≤ b.update_id) (u :: us) →
      specMaxUpdateId (u :: us) = ((u :: us).getLast (by simp)).update_id := by
  intro u us
  induction us generalizing u with
  | nil => intro _; simp [specMaxUpdateId]
  | cons v vs ih =>
    intro hch
    have huv : u.update_id ≤ v.update_id := (List.chain'_cons.mp hch).1
    have htail := (List.chain'_cons.mp hch).2
    have hstep : specMaxUpdateId (u :: v :: vs) = specMaxUpdateId (v :: vs) := by
      simp [specMaxUpdateId, max_eq_right huv]
    rw [hstep, ih v htail]
    simp [List.getLast]

/-- Claim C1 (amended): after every successful non-empty batch —
whatever the order of its elements — the stored offset equals the
`update_id` of the LAST update of the batch plus one; when the batch is
additionally sorted ascending by `update_id` (as the protocol returns
it) this coincides with the maximal `update_id` plus one. For unsorted
batches the two differ (see the counterexample). -/
theorem offset_advance_amended (o : ℤ) (us : List Upd) (hne : us ≠ []) :
    nextOffset o us = (us.getLast hne).update_id + 1 ∧
    (List.Chain' (fun a b => a.update_id ≤ b.update_id) us →
      nextOffset o us = specMaxUpdateId us + 1) := by
  obtain ⟨u, us, rfl⟩ := List.exists_cons_of_ne_nil hne
  have hlast : nextOffset o (u :: us) = ((u :: us).getLast (by simp)).update_id + 1 := by
    rw [nextOffset, List.getLast?_eq_getLast (u :: us) (by simp)]
  exact ⟨hlast, fun hsorted => by
    rw [hlast, specMaxUpdateId_eq_getLast u us hsorted]⟩

/-- Claim C1 (counterexample): for the out-of-order batch
`[5, 3]` the code stores offset `3 + 1 = 4`, not
`max(update_id) + 1 = 6`; the claim's "regardless of the order of its
elements" fails. -/
theorem offset_advance_counterexample :
    nextOffset 0 [⟨5⟩, ⟨3⟩] = 4 ∧ specMaxUpdateId [⟨5⟩, ⟨3⟩] + 1 = 6 ∧
    nextOffset 0 [⟨5⟩, ⟨3⟩] ≠ specMaxUpdateId [⟨5⟩, ⟨3⟩] + 1 := by
  refine ⟨by decide, by decide, by decide⟩

/-- Claim C1 (witness): the unconditional last-element rule at the
out-of-order batch `[5, 3]` (offset becomes `3 + 1 = 4`) and the full
amended statement at the ascending batch `[3, 5]` (offset becomes
`5 + 1 = 6`, the maximum plus one). -/
theorem offset_advance_witness :
    ([⟨5⟩, ⟨3⟩] : List Upd) ≠ [] ∧
    nextOffset 0 [⟨5⟩, ⟨3⟩] =
      (([⟨5⟩, ⟨3⟩] : List Upd).getLast (by decide)).update_id + 1 ∧
    ([⟨3⟩, ⟨5⟩] : List Upd) ≠ [] ∧
    nextOffset 0 [⟨3⟩, ⟨5⟩] =
      (([⟨3⟩, ⟨5⟩] : List Upd).getLast (by decide)).update_id + 1 ∧
    List.Chain' (fun a b : Upd => a.update_id ≤ b.update_id) ([⟨3⟩, ⟨5⟩] : List Upd) ∧
    nextOffset 0 [⟨3⟩, ⟨5⟩] = specMaxUpdateId [⟨3⟩, ⟨5⟩] + 1 :=
  ⟨by decide,
    (offset_advance_amended 0 [⟨5⟩, ⟨3⟩] (by decide)).1,
    by decide,
    (offset_advance_amended 0 [⟨3⟩, ⟨5⟩] (by decide)).1,
    List.chain'_pair.mpr (by decide),
    (offset_advance_amended 0 [⟨3⟩, ⟨5⟩] (by decide)).2
      (List.chain'_pair.mpr (by decide))⟩

/-- Claim C8 (code evaluation): the legacy deno fetcher's
`Math.max(100, Math.min(1, batchSize))` swaps the clamp and always
passes `limit = 100` — at `batchSize = 50` it yields 100 instead of 50
— while the node fetcher's `Math.max(1, Math.min(batchSize, 100))`
satisfies the claimed clamp exactly: it lands in `[1, 100]`, equals
`batchSize` when `1 ≤ batchSize ≤ 100`, is 1 below and 100 above
(including `batchSize = ∞`). -/
theorem getUpdates_limit_clamp :
    denoLimit 50 = 100 ∧ denoLimit 50 ≠ 50 ∧ nodeLimit 50 = 50 ∧ nodeLimit ⊤ = 100 ∧
    (∀ b : ℕ∞, 1 ≤ nodeLimit b ∧ nodeLimit b ≤ 100) ∧
    (∀ b : ℕ∞, 1 ≤ b → b ≤ 100 → nodeLimit b = b) ∧
    (∀ b : ℕ∞, b < 1 → nodeLimit b = 1) ∧
    (∀ b : ℕ∞, 100 < b → nodeLimit b = 100) := by
  refine ⟨by decide, by decide, by decide, by decide, ?_, ?_, ?_, ?_⟩
  · intro b
    exact ⟨le_max_left _ _, max_le (by decide) (min_le_right _ _)⟩
  · intro b h1 h100
    rw [nodeLimit, min_eq_left h100, max_eq_right h1]
  · intro b h
    have hb : b ≤ 100 := le_trans h.le (by decide)
    rw [nodeLimit, min_eq_left hb, max_eq_left h.le]
  · intro b h
    rw [nodeLimit, min_eq_right h.le, max_eq_right (by decide)]

/-- Claim C8 (witness): the in-range case at `batchSize = 50`. -/
theorem getUpdates_limit_clamp_witness :
    (1 : ℕ∞) ≤ 50 ∧ (50 : ℕ∞) ≤ 100 ∧ nodeLimit 50 = 50 :=
  ⟨by decide, by decide, getUpdates_limit_clamp.2.2.2.2.2.1 50 (by decide) (by decide)⟩

/-- Claim C10: a `getUpdates` rejection that arrives while the abort
signal is already raised is rethrown immediately by `fetchUpdates`: no
retry of the remaining script, no backoff sleep, no error log (even with
`silent = false`), and no unrecoverable-error check, regardless of the
remaining `maxRetryTime` budget. -/
theorem fetch_abort_rethrow_immediate {Y : Type} (backoff : ℕ → ℕ) (silent : Bool)
    (latestRetry now retryIn : ℕ) (e : JsError) (dur : ℕ) (rest : List (Attempt Y)) :
    fetchGo backoff silent latestRetry now retryIn (.fail e true dur :: rest) =
      (.thrown e (now + dur), [.attempted]) := by
  simp [fetchGo]

/-- Claim C3: a rejection with `error_code` 401 or 409 is rethrown from
the retry loop immediately — `throwIfUnrecoverable` rethrows, no sleep
event occurs and the rest of the script is never consumed — while a
rejection with `error_code` 429 carrying a numeric
`parameters.retry_after` of `n` seconds makes the loop sleep
`1000 * n` milliseconds and then continue the regular retry schedule. -/
theorem unrecoverable_and_rate_limit :
    (∀ {Y : Type} (e : JsError) (backoff : ℕ → ℕ) (silent : Bool)
        (latestRetry now retryIn dur : ℕ) (rest : List (Attempt Y)),
      e.error_code = some 401 ∨ e.error_code = some 409 →
      throwIfUnrecoverable e = .error e ∧
      fetchGo backoff silent latestRetry now retryIn (.fail e false dur :: rest) =
        (.thrown e (now + dur),
          .attempted :: ((if silent then [] else [.logged e.tag]) ++ [.checked]))) ∧
    (∀ {Y : Type} (e : JsError) (n : ℕ) (backoff : ℕ → ℕ) (silent : Bool)
        (latestRetry now retryIn dur : ℕ) (rest : List (Attempt Y)),
      e.error_code = some 429 → e.retry_after = some n →
      throwIfUnrecoverable e = .ok (some (1000 * n)) ∧
      fetchGo backoff silent latestRetry now retryIn (.fail e false dur :: rest) =
        (if now + dur + 1000 * n + retryIn < latestRetry then
          ((fetchGo backoff silent latestRetry (now + dur + 1000 * n + retryIn)
              (backoff retryIn) rest).1,
            .attempted :: ((if silent then [] else [.logged e.tag]) ++ [.checked] ++
              [.slept (1000 * n)] ++ [.slept retryIn] ++
              (fetchGo backoff silent latestRetry (now + dur + 1000 * n + retryIn)
                (backoff retryIn) rest).2))
        else
          (.thrown e (now + dur + 1000 * n),
            .attempted :: ((if silent then [] else [.logged e.tag]) ++ [.checked] ++
              [.slept (1000 * n)])))) := by
  constructor
  · intro Y e backoff silent latestRetry now retryIn dur rest hcode
    have hthrow : throwIfUnrecoverable e = .error e := by
      rcases hcode with h | h <;> simp [throwIfUnrecoverable, h]
    refine ⟨hthrow, ?_⟩
    simp [fetchGo, hthrow]
  · intro Y e n backoff silent latestRetry now retryIn dur rest hcode hra
    have hok : throwIfUnrecoverable e = .ok (some (1000 * n)) := by
      simp [throwIfUnrecoverable, hcode, hra]
    refine ⟨hok, ?_⟩
    simp only [fetchGo, hok]
    by_cases hcond : now + dur + 1000 * n + retryIn < latestRetry
    · simp [hcond, Nat.add_assoc]
    · simp [hcond, Nat.add_assoc]

/-- Claim C3 (witness): a 409 rejection is rethrown with no sleep, and
a 429 rejection with `retry_after = 5` makes `throwIfUnrecoverable`
request a 5000 ms sleep. -/
theorem unrecoverable_and_rate_limit_witness :
    throwIfUnrecoverable ⟨1, some 409, none⟩ = Except.error ⟨1, some 409, none⟩ ∧
    fetchGo (Y := Upd) expBackoff true 1000000 0 100 [.fail ⟨1, some 409, none⟩ false 0] =
      (.thrown ⟨1, some 409, none⟩ 0, [.attempted, .checked]) ∧
    throwIfUnrecoverable ⟨2, some 429, some 5⟩ = Except.ok (some 5000) := by
  have hA := unrecoverable_and_rate_limit.1 (Y := Upd) ⟨1, some 409, none⟩ expBackoff true
    1000000 0 100 0 [] (Or.inr rfl)
  have hB := unrecoverable_and_rate_limit.2 (Y := Upd) ⟨2, some 429, some 5⟩ 5 expBackoff true
    1000000 0 100 0 [] rfl rfl
  exact ⟨hA.1, hA.2.trans (by decide), hB.1.trans (by rfl)⟩

/-- On a deque with positive limit `L`, draining resolves with a
positive capacity that equals `L` minus the live size, and the live size
is strictly below `L` at that moment. -/
theorem drainToCapacity_spec (L : ℕ) (hL : 0 < L) :
    ∀ size : ℕ,
      (drainToCapacity L size).2 < L ∧
      (drainToCapacity L size).1 = L - (drainToCapacity L size).2 := by
  intro size
  induction size with
  | zero => exact ⟨hL, by simp [drainToCapacity]⟩
  | succ n ih =>
    rw [drainToCapacity]
    by_cases h : n + 1 < L
    · simp [h]
    · simp only [if_neg h]
      exact ih

/-- Claim C7: whenever the promise returned by `add` resolves on a
deque with positive limit `L`, the number of live nodes is at most `L`
(in fact strictly below), and the promise resolves with `L` minus the
current size, a positive value, at the first moment that value becomes
positive; in particular a single `add` of 6 updates at limit 3 resolves
with capacity 1(when 2 live tasks remain). -/
theorem deque_add_capacity (L size k : ℕ) (hL : 0 < L) :
    (addResolve L size k).2 ≤ L ∧ (addResolve L size k).2 < L ∧
    (addResolve L size k).1 = L - (addResolve L size k).2 ∧
    0 < (addResolve L size k).1 ∧
    addResolve 3 0 6 = (1, 2) := by
  have h := drainToCapacity_spec L hL (size + k)
  unfold addResolve
  exact ⟨le_of_lt h.1, h.1, h.2, by rw [h.2]; omega, by decide⟩

/-- Claim C7 (witness): the literal capacity scenario, limit 3, one
`add` of six updates from an empty deque. -/
theorem deque_add_capacity_witness :
    0 < 3 ∧ addResolve 3 0 6 = (1, 2) ∧ (addResolve 3 0 6).1 = 3 - (addResolve 3 0 6).2 :=
  ⟨by decide, (deque_add_capacity 3 0 6 (by decide)).2.2.2.2,
    (deque_add_capacity 3 0 6 (by decide)).2.2.1⟩

/-- Claim C2 (amended): on a run of plain recoverable non-abort
failures, the fetch loop retries exactly while
`now + nextRetryIn < startTime + maxRetryTime` — sleeping the current
`retryIn` and backing off each time, as `scheduleSleeps` lists — and
surfaces the single error at the first failure for which
`now + nextRetryIn ≥ startTime + maxRetryTime` (the `throwsAt` rule);
at that point the surfacing time `t` satisfies
`t + nextRetryIn ≥ startTime + maxRetryTime`, so the elapsed time plus
the pending backoff delay reaches `maxRetryTime`, but the elapsed time
alone may fall short of `maxRetryTime`. -/
theorem fetch_retry_stop_rule {Y : Type} (backoff : ℕ → ℕ) (silent : Bool)
    (latestRetry tag : ℕ) :
    ∀ (ds : List ℕ) (now retryIn : ℕ),
      ((fetchGo (Y := Y) backoff silent latestRetry now retryIn
          (ds.map fun d => .fail (plainErr tag) false d)).1 =
        match throwsAt backoff latestRetry now retryIn ds with
        | some p => .thrown (plainErr tag) p.1
        | none => .outOfScript) ∧
      ((fetchGo (Y := Y) backoff silent latestRetry now retryIn
          (ds.map fun d => .fail (plainErr tag) false d)).2.filterMap sleptMs =
        scheduleSleeps backoff latestRetry now retryIn ds) ∧
      (∀ t r, throwsAt backoff latestRetry now retryIn ds = some (t, r) →
        latestRetry ≤ t + r) := by
  intro ds
  induction ds with
  | nil =>
    intro now retryIn
    refine ⟨rfl, rfl, ?_⟩
    intro t r h
    simp [throwsAt] at h
  | cons d rest ih =>
    intro now retryIn
    refine ⟨?_, ?_, ?_⟩
    · by_cases hc : now + d + retryIn < latestRetry
      · have hih := (ih (now + d + retryIn) (backoff retryIn)).1
        simp only [List.map_cons, fetchGo, throwIfUnrecoverable, plainErr, throwsAt,
          Nat.add_zero, if_pos hc, Bool.false_eq_true, if_false] at hih ⊢
        exact hih
      · simp only [List.map_cons, fetchGo, throwIfUnrecoverable, plainErr, throwsAt,
          Nat.add_zero, if_neg hc, Bool.false_eq_true, if_false]
    · by_cases hc : now + d + retryIn < latestRetry
      · have hih := (ih (now + d + retryIn) (backoff retryIn)).2.1
        simp only [plainErr] at hih
        cases silent <;>
          simp [fetchGo, throwIfUnrecoverable, plainErr, scheduleSleeps,
            Nat.add_zero, hc, sleptMs, hih]
      · cases silent <;>
          simp [fetchGo, throwIfUnrecoverable, plainErr, scheduleSleeps,
            Nat.add_zero, hc, sleptMs]
    · intro t r h
      by_cases hc : now + d + retryIn < latestRetry
      · rw [throwsAt, if_pos hc] at h
        exact (ih (now + d + retryIn) (backoff retryIn)).2.2 t r h
      · rw [throwsAt, if_neg hc] at h
        obtain ⟨rfl, rfl⟩ := Prod.mk.injEq .. ▸ Option.some.inj h
        omega

/-- Claim C2 (counterexample): with the default exponential backoff
(initial 100 ms) and `maxRetryTime = 1000` ms starting at time 0, four
consecutive instant plain failures surface the error at time 700 — the
stop rule `now + nextRetryIn ≥ startTime + maxRetryTime` fires with
`700 + 800 ≥ 1000` — so the error is surfaced although only
700 < 1000 = maxRetryTime milliseconds have elapsed, refuting
"surfaced only after at least maxRetryTime milliseconds". -/
theorem fetch_retry_maxRetryTime_counterexample :
    (fetchGo (Y := Upd) expBackoff true (0 + 1000) 0 100
        (List.replicate 4 (.fail (plainErr 0) false 0))).1 =
      .thrown (plainErr 0) 700 ∧
    700 < 1000 := by
  exact ⟨by decide, by decide⟩

/-- Claim C2 (witness): the amended stop rule applied to the
counterexample run: `throwsAt` fires at time 700 with pending retry
delay 800, and indeed `1000 ≤ 700 + 800`. -/
theorem fetch_retry_stop_rule_witness :
    throwsAt expBackoff 1000 0 100 [0, 0, 0, 0] = some (700, 800) ∧
    1000 ≤ 700 + 800 :=
  ⟨by decide,
    (fetch_retry_stop_rule (Y := Upd) expBackoff true 1000 0 [0, 0, 0, 0] 0 100).2.2
      700 800 (by decide)⟩

/-- Claim C6: the promise created by `start` rejects with an error
raised during iteration if and only if the error arrived while `running`
was still true — that is, every earlier completed iteration saw no
`stop`, and `stop` was not called before the error arrived. Otherwise
(stop first) the error is swallowed and the loop completes normally. -/
theorem runner_error_swallow_iff {E : Type} (evts : List (RunnerEvent E)) (e : E) :
    runnerLoop evts = .error e ↔
      ∃ pre rest, evts = pre ++ RunnerEvent.raise false e :: rest ∧
        ∀ x ∈ pre, x = RunnerEvent.batch false := by
  induction evts with
  | nil =>
    constructor
    · intro h
      simp [runnerLoop] at h
    · rintro ⟨pre, rest, h, -⟩
      exact absurd h (by simp)
  | cons x t ih =>
    cases x with
    | batch s =>
      cases s with
      | true =>
        constructor
        · intro h
          simp [runnerLoop] at h
        · rintro ⟨pre, rest, heq, hall⟩
          cases pre with
          | nil => simp at heq
          | cons p ps =>
            have hp : p = RunnerEvent.batch false := hall p (by simp)
            rw [List.cons_append] at heq
            have := (List.cons.injEq .. ▸ heq).1
            simp [hp] at this
      | false =>
        have hstep : runnerLoop (RunnerEvent.batch false :: t) = runnerLoop t := by
          simp [runnerLoop]
        rw [hstep, ih]
        constructor
        · rintro ⟨pre, rest, rfl, hall⟩
          refine ⟨RunnerEvent.batch false :: pre, rest, rfl, ?_⟩
          intro x hx
          rcases List.mem_cons.mp hx with rfl | hx
          · rfl
          · exact hall x hx
        · rintro ⟨pre, rest, heq, hall⟩
          cases pre with
          | nil => simp at heq
          | cons p ps =>
            rw [List.cons_append] at heq
            refine ⟨ps, rest, (List.cons.injEq .. ▸ heq).2, ?_⟩
            intro x hx
            exact hall x (List.mem_cons_of_mem p hx)
    | raise sb e2 =>
      cases sb with
      | true =>
        constructor
        · intro h
          simp [runnerLoop] at h
        · rintro ⟨pre, rest, heq, hall⟩
          cases pre with
          | nil => simp at heq
          | cons p ps =>
            have hp : p = RunnerEvent.batch false := hall p (by simp)
            rw [List.cons_append] at heq
            have := (List.cons.injEq .. ▸ heq).1
            simp [hp] at this
      | false =>
        have hstep : runnerLoop (RunnerEvent.raise false e2 :: t) = .error e2 := by
          simp [runnerLoop]
        rw [hstep]
        constructor
        · intro h
          have : e2 = e := by simpa using h
          subst this
          exact ⟨[], t, rfl, by simp⟩
        · rintro ⟨pre, rest, heq, hall⟩
          cases pre with
          | nil =>
            simp only [List.nil_append] at heq
            injection heq with h1 h2
            injection h1 with hsb he
            rw [he]
          | cons p ps =>
            have hp : p = RunnerEvent.batch false := hall p (by simp)
            rw [List.cons_append] at heq
            have := (List.cons.injEq .. ▸ heq).1
            simp [hp] at this

/-- The `Promise.all` over settlement futures resolves, whatever the
underlying outcomes were. -/
theorem allE_map_settledOk {E : Type} (l : List ℕ) (f : ℕ → Except E Unit) :
    allE (l.map fun j => settledOk (f j)) = Except.ok () := by
  induction l with
  | nil => rfl
  | cons j rest ih => simpa [allE, settledOk] using ih

/-- The dataflow computes one outcome per arrival. -/
theorem seqResults_length {E : Type} (ks : List (List String))
    (outcomes : ℕ → Except E Unit) : ∀ n, (seqResults ks outcomes n).length = n := by
  intro n
  induction n with
  | zero => rfl
  | succ n ih => simp [seqResults, ih]

/-- Claim C5: a rejecting `next()` does not poison chained work. The
barrier of every invocation resolves (it is built from settlement
futures, so it never itself rejects, whatever the outcomes of the prior
tails were), and every invocation's middleware promise settles with
exactly its own `next()`'s outcome — a rejection is rethrown to the
failing invocation's own caller only, and every later invocation
sharing a key still runs its own `next()` and receives its own
outcome. -/
theorem seq_failure_isolated {E : Type} (ks : List (List String))
    (outcomes : ℕ → Except E Unit) (i : ℕ) :
    seqBarrier ks outcomes i = Except.ok () ∧
    seqResult ks outcomes i = outcomes i := by
  refine ⟨allE_map_settledOk _ _, ?_⟩
  have hlen := seqResults_length ks outcomes i
  have hstep : seqResults ks outcomes (i + 1) =
      seqResults ks outcomes i ++
        [(allE ((directDeps ks i).map
          fun j => settledOk ((seqResults ks outcomes i).getD j (Except.ok ())))).bind
            fun _ => outcomes i] := rfl
  rw [seqResult, hstep, List.getD_eq_getElem?_getD,
    List.getElem?_append_right (le_of_eq hlen), hlen]
  simp only [Nat.sub_self, List.getElem?_cons_zero, Option.getD_some]
  rw [allE_map_settledOk]
  rfl

/-- Unfolding the tail lookup one arrival at a time. -/
theorem lastWith_succ (ks : List (List String)) (k : String) (i : ℕ) :
    lastWith ks k (i + 1) =
      if (ks.getD i []).contains k then some i else lastWith ks k i := by
  unfold lastWith
  rw [List.range_succ, List.foldl_append]
  rfl

/-- A successful tail lookup points to an earlier arrival that holds
the key. -/
theorem lastWith_isSome_spec (ks : List (List String)) (k : String) :
    ∀ i j, lastWith ks k i = some j →
      j < i ∧ (ks.getD j []).contains k = true := by
  intro i
  induction i with
  | zero =>
    intro j h
    exact absurd h (by simp [lastWith])
  | succ i ih =>
    intro j h
    rw [lastWith_succ] at h
    by_cases hc : (ks.getD i []).contains k = true
    · rw [if_pos hc] at h
      injection h with h
      subst h
      exact ⟨Nat.lt_succ_self i, hc⟩
    · rw [if_neg hc] at h
      obtain ⟨hj, hck⟩ := ih j h
      exact ⟨Nat.lt_succ_of_lt hj, hck⟩

/-- If some earlier arrival holds the key, the tail lookup succeeds and
points at least as far as that arrival. -/
theorem lastWith_ge (ks : List (List String)) (k : String) :
    ∀ i j, j < i → (ks.getD j []).contains k = true →
      ∃ jm, lastWith ks k i = some jm ∧ j ≤ jm := by
  intro i
  induction i with
  | zero =>
    intro j hj _
    exact absurd hj (by omega)
  | succ i ih =>
    intro j hj hc
    rw [lastWith_succ]
    by_cases hci : (ks.getD i []).contains k = true
    · exact ⟨i, by rw [if_pos hci], by omega⟩
    · rw [if_neg hci]
      have hj2 : j < i := by
        rcases Nat.lt_succ_iff_lt_or_eq.mp hj with h | rfl
        · exact h
        · exact absurd hc hci
      exact ih j hj2 hc

/-- If the map entry for `k` is already gone when invocation `i`
arrives, every earlier arrival holding `k` settled strictly before
`i`'s arrival. -/
theorem keyAlive_false_spec (ks : List (List String)) (arrive settle : ℕ → ℕ)
    (i : ℕ) (k : String) (h : keyAlive ks arrive settle i k = false) :
    ∀ j, j < i → (ks.getD j []).contains k = true → settle j < arrive i := by
  intro j hj hc
  by_contra hcon
  have hle : arrive i ≤ settle j := by omega
  have : keyAlive ks arrive settle i k = true := by
    refine List.any_eq_true.mpr ⟨j, List.mem_range.mpr hj, ?_⟩
    rw [hc]
    simp [hle]
  rw [this] at h
  exact absurd h (by simp)

/-- Ordering backbone of the sequentializer: under any schedule
consistent with the promise semantics, if two invocations share a key,
the earlier one settles strictly before the later one starts. -/
theorem seq_settle_lt_start (ks : List (List String)) (arrive start settle : ℕ → ℕ)
    (h : validSchedule ks arrive start settle) :
    ∀ B, B < ks.length → ∀ A k, A < B → k ∈ ks.getD A [] → k ∈ ks.getD B [] →
      settle A < start B := by
  intro B
  induction B using Nat.strong_induction_on with
  | _ B ih =>
    intro hB A k hAB hkA hkB
    obtain ⟨har, hss, hdep⟩ := h B hB
    have hcontA : (ks.getD A []).contains k = true := List.elem_iff.mpr hkA
    cases hal : keyAlive ks arrive settle B k with
    | false =>
      have h3 := keyAlive_false_spec ks arrive settle B k hal A hAB hcontA
      omega
    | true =>
      obtain ⟨jm, hjm, hAjm⟩ := lastWith_ge ks k B A hAB hcontA
      have hdk := hdep k hkB
      simp only [depOkB, hjm, hal, Bool.not_true, Bool.false_or,
        decide_eq_true_eq] at hdk
      rcases eq_or_lt_of_le hAjm with rfl | hlt
      · exact hdk
      · obtain ⟨hjmB, hcjm⟩ := lastWith_isSome_spec ks k B jm hjm
        have hkjm : k ∈ ks.getD jm [] := List.elem_iff.mp hcjm
        have h1 : settle A < start jm :=
          ih jm hjmB (lt_trans hjmB hB) A k hlt hkA hkjm
        have h2 : start jm ≤ settle jm := (h jm (lt_trans hjmB hB)).2.1
        omega

/-- Two invocations with disjoint key lists admit a schedule in which
they run at the same time: with no shared key, the later one's barrier
references nothing. -/
theorem disjoint_concurrent_schedule (ka kb : List String)
    (hd : ∀ k ∈ kb, k ∉ ka) :
    validSchedule [ka, kb] (fun _ => 0) (fun _ => 0) (fun _ => 1) ∧
    (fun _ : ℕ => 0) 0 < (fun _ : ℕ => 1) 1 ∧
    (fun _ : ℕ => 0) 1 < (fun _ : ℕ => 1) 0 := by
  refine ⟨?_, Nat.zero_lt_one, Nat.zero_lt_one⟩
  intro i hi
  refine ⟨Nat.le_refl 0, Nat.zero_le 1, ?_⟩
  intro k hk
  match i, hi with
  | 0, _ =>
    simp [depOkB, lastWith]
  | 1, _ =>
    have hnotin : k ∉ ka := hd k (by simpa using hk)
    have hcf : ka.contains k = false := by simp [List.elem_iff, hnotin]
    have hlw : lastWith [ka, kb] k 1 = none := by
      rw [show (1 : ℕ) = 0 + 1 from rfl, lastWith_succ]
      simp [hcf, lastWith, hnotin]
    simp [depOkB, hlw]

/-- Claim C4: for any two sequentialize invocations `A` before `B` over
normalized constraint keys, if their key sets intersect then, in every
schedule consistent with the middleware's promise semantics, `A`'s
`next()` has settled strictly before `B`'s `next()` starts; and if two
invocations have disjoint key sets, a consistent schedule exists in
which the two run concurrently (neither one's start waits for the
other's settlement). -/
theorem seq_overlap_order_disjoint_concurrent :
    (∀ (cons : List ConResult) (arrive start settle : ℕ → ℕ) (A B : ℕ) (k : String),
      validSchedule (cons.map normalizeKeys) arrive start settle →
      A < B → B < cons.length →
      k ∈ (cons.map normalizeKeys).getD A [] →
      k ∈ (cons.map normalizeKeys).getD B [] →
      settle A < start B) ∧
    (∀ ca cb : ConResult, (∀ k ∈ normalizeKeys cb, k ∉ normalizeKeys ca) →
      ∃ arrive start settle : ℕ → ℕ,
        validSchedule [normalizeKeys ca, normalizeKeys cb] arrive start settle ∧
        start 0 < settle 1 ∧ start 1 < settle 0) := by
  constructor
  · intro cons arrive start settle A B k hvalid hAB hB hkA hkB
    exact seq_settle_lt_start (cons.map normalizeKeys) arrive start settle hvalid
      B (by simpa using hB) A k hAB hkA hkB
  · intro ca cb hd
    obtain ⟨hv, h1, h2⟩ := disjoint_concurrent_schedule (normalizeKeys ca) (normalizeKeys cb) hd
    exact ⟨fun _ => 0, fun _ => 0, fun _ => 1, hv, h1, h2⟩

/-- Setting one ring slot shifts the sum by the difference between the
new value and the overwritten one. -/
theorem sum_set_int (l : List ℕ) :
    ∀ i, i < l.length → ∀ v : ℕ,
      (((l.set i v).sum : ℕ) : ℤ) = (l.sum : ℤ) + v - (l.getD i 0 : ℤ) := by
  induction l with
  | nil =>
    intro i hi
    simp at hi
  | cons h t ih =>
    intro i hi v
    cases i with
    | zero =>
      simp only [List.set, List.sum_cons, List.getD_cons_zero]
      push_cast
      ring
    | succ m =>
      simp only [List.set, List.sum_cons, List.getD_cons_succ]
      have hrec := ih m (by simpa using hi) v
      push_cast at hrec ⊢
      omega

/-- The JavaScript `x || 1` denominator agrees with the specification's
`max(1, x)` for a natural sum. -/
theorem ite_denominator_max (m : ℕ) :
    (if (m : ℤ) = 0 then (1 : ℚ) else ((m : ℤ) : ℚ)) = max 1 (m : ℚ) := by
  by_cases h : (m : ℤ) = 0
  · have hm : m = 0 := by exact_mod_cast h
    subst hm
    simp
  · have hm : 1 ≤ m := by
      rcases Nat.eq_zero_or_pos m with rfl | hp
      · exact absurd rfl (by exact_mod_cast h)
      · exact hp
    rw [if_neg h, max_eq_right (by exact_mod_cast hm : (1 : ℚ) ≤ (m : ℚ))]
    push_cast
    rfl

/-- Claim C9: the wait computed by `record` after a yielded batch of
`n` items that took `d` milliseconds equals
`maxDelayMilliseconds * tanh(balance * sum(durations) / max(1,
sum(counts)))` over the ring of the last 16 (count, duration) records,
where `balance = 100 * clamp(speedTrafficBalance, 0, 1) /
max(1, maxDelayMilliseconds)`; and the worker suspends for that wait if
and only if the wait is positive and the batch held fewer than 100
items. -/
theorem source_wait_formula (stb : ℚ) (maxDelayMilliseconds : ℕ) (st : SourceStats) (n d : ℕ)
    (hlen : st.counts.length = STAT_LEN) (hlend : st.durations.length = STAT_LEN)
    (hidx : st.index < STAT_LEN)
    (hc : st.totalCounts = (st.counts.sum : ℤ))
    (hdur : st.totalDuration = (st.durations.sum : ℤ)) :
    recordWait stb maxDelayMilliseconds st n d =
      specWait stb maxDelayMilliseconds
        (updateRing st n d).counts (updateRing st n d).durations ∧
    (waits (recordWait stb maxDelayMilliseconds st n d) n ↔
      0 < specWait stb maxDelayMilliseconds
        (updateRing st n d).counts (updateRing st n d).durations ∧ n < 100) := by
  have hkey : recordWait stb maxDelayMilliseconds st n d =
      specWait stb maxDelayMilliseconds
        (updateRing st n d).counts (updateRing st n d).durations := by
    by_cases hb : balance stb maxDelayMilliseconds = 0
    · simp only [recordWait, specWait, if_pos hb, hb]
      push_cast
      simp
    · simp only [recordWait, specWait, if_neg hb]
      congr 1
      congr 1
      simp only [recordCore, if_neg hb]
      have hsc : (updateRing st n d).totalCounts =
          (((updateRing st n d).counts.sum : ℕ) : ℤ) := by
        show st.totalCounts + n - st.counts.getD st.index 0 =
          (((st.counts.set st.index n).sum : ℕ) : ℤ)
        rw [sum_set_int st.counts st.index (by rw [hlen]; exact hidx) n, hc]
      have hsd : (updateRing st n d).totalDuration =
          (((updateRing st n d).durations.sum : ℕ) : ℤ) := by
        show st.totalDuration + d - st.durations.getD st.index 0 =
          (((st.durations.set st.index d).sum : ℕ) : ℤ)
        rw [sum_set_int st.durations st.index (by rw [hlend]; exact hidx) d, hdur]
      simp only [estimateOf, hsc, hsd, ite_denominator_max]
      generalize (updateRing st n d).durations.sum = sd
      generalize (updateRing st n d).counts.sum = sc
      push_cast
      ring
  refine ⟨hkey, ?_⟩
  unfold waits
  rw [hkey]

/-- Claim C9 (witness): the formula evaluated on the freshly
constructed ring (all counts 100, all durations 1) after recording a
batch of 50 items that took 10 milliseconds, with
`speedTrafficBalance = 1` and `maxDelayMilliseconds = 500`. -/
theorem source_wait_formula_witness :
    sourceStats0.counts.length = STAT_LEN ∧
    sourceStats0.durations.length = STAT_LEN ∧
    sourceStats0.index < STAT_LEN ∧
    sourceStats0.totalCounts = (sourceStats0.counts.sum : ℤ) ∧
    sourceStats0.totalDuration = (sourceStats0.durations.sum : ℤ) ∧
    recordWait 1 500 sourceStats0 50 10 =
      specWait 1 500 (updateRing sourceStats0 50 10).counts
        (updateRing sourceStats0 50 10).durations := by
  refine ⟨by decide, by decide, by decide, by decide, by decide, ?_⟩
  exact (source_wait_formula 1 500 sourceStats0 50 10 (by decide) (by decide) (by decide)
    (by decide) (by decide)).1

/-- Claim C4 (witness): two invocations with the single key `a`, the
first settling at time 5, the second starting at time 6 under a
concrete valid schedule. -/
theorem seq_overlap_order_witness :
    validSchedule ([ConResult.str "a", ConResult.str "a"].map normalizeKeys)
      (fun _ => 0) (fun i => if i = 0 then 0 else 6) (fun i => if i = 0 then 5 else 7) ∧
    (fun i : ℕ => if i = 0 then 5 else 7) 0 < (fun i : ℕ => if i = 0 then 0 else 6) 1 := by
  constructor
  · decide
  · exact seq_overlap_order_disjoint_concurrent.1 [ConResult.str "a", ConResult.str "a"]
      (fun _ => 0) (fun i => if i = 0 then 0 else 6) (fun i => if i = 0 then 5 else 7)
      0 1 "a" (by decide) (by decide) (by decide) (by decide) (by decide)
